import Mathlib

/-!
Verification development for the `infra/review` deployment of the scorer
repository, together with a model of the declarative provisioning engine that
its specification describes (graph builder, state store, diff engine,
dependency scheduler, execution engine).

Part 1 embeds the concrete resource declarations of `src/infra/review/index.ts`
as Lean data.  Part 2 models the provisioning engine from the specification.
Part 3 states and proves the properties.
-/

namespace Scorer

/-! ## Part 1: the concrete deployment (`src/infra/review/index.ts`) -/

/-- A process environment: maps a variable name to its value, if set. -/
abbrev Env : Type := String → Option String

/-- JavaScript template-literal coercion: interpolating `undefined` yields the
literal string `"undefined"`; a present string is kept as is. -/
def tmpl : Option String → String
  | some s => s
  | none => "undefined"

/-- `let route53Zone = `${process.env["ROUTE_53_ZONE"]}``. -/
def route53Zone (env : Env) : String := tmpl (env "ROUTE_53_ZONE")

/-- `let domain = `scorer.${process.env["DOMAIN"]}``. -/
def domain (env : Env) : String := "scorer." ++ tmpl (env "DOMAIN")

/-- `let SCORER_SERVER_SSM_ARN = `${process.env["SCORER_SERVER_SSM_ARN"]}``. -/
def SCORER_SERVER_SSM_ARN (env : Env) : String := tmpl (env "SCORER_SERVER_SSM_ARN")

/-- `let dbUsername = `${process.env["DB_USER"]}``. -/
def dbUsername (env : Env) : String := tmpl (env "DB_USER")

/-- The raw string fed to `pulumi.secret` for the database password. -/
def dbPasswordStr (env : Env) : String := tmpl (env "DB_PASSWORD")

/-- `let dbName = `${process.env["DB_NAME"]}``. -/
def dbName (env : Env) : String := tmpl (env "DB_NAME")

/-- `export const dockerGtcPassportIamImage = `${process.env["DOCKER_GTC_PASSPORT_SCORER_IMAGE"]}``. -/
def dockerGtcPassportIamImage (env : Env) : String :=
  tmpl (env "DOCKER_GTC_PASSPORT_SCORER_IMAGE")

/-- A Pulumi output value: a payload string together with its secretness mark. -/
structure POutput where
  val : String
  isSecret : Bool
deriving DecidableEq, Repr

/-- Modelled from the spec: `pulumi.secret` marks a configuration value secret
(the marking operation itself lives in the external Pulumi SDK, not in this
repository). -/
def psecret (s : String) : POutput := ⟨s, true⟩

/-- A plain (non-secret) output value. -/
def pplain (s : String) : POutput := ⟨s, false⟩

/-- `let dbPassword = pulumi.secret(`${process.env["DB_PASSWORD"]}`)`. -/
def dbPassword (env : Env) : POutput := psecret (dbPasswordStr env)

/-- Modelled from the spec: `pulumi.interpolate` (external Pulumi SDK)
concatenates output values; the result is secret when any part is secret, which
is how a value "marked secret" taints everything derived from it. -/
def pinterpolate (parts : List POutput) : POutput :=
  ⟨String.join (parts.map POutput.val), parts.any POutput.isSecret⟩

/-- `export const rdsConnectionUrl = pulumi.interpolate`psql://${dbUsername}:${dbPassword}@${rdsEndpoint}/${dbName}``.
The RDS endpoint is a provider-assigned plain output, taken here as a
parameter. -/
def rdsConnectionUrl (env : Env) (rdsEndpoint : String) : POutput :=
  pinterpolate
    [pplain "psql://", pplain (dbUsername env), pplain ":", dbPassword env,
     pplain "@", pplain rdsEndpoint, pplain "/", pplain (dbName env)]

/-- The `environment` block of the `scorer` container of the Fargate service:
`DEBUG`, `DATABASE_URL` (the interpolated connection URL) and
`ALLOWED_HOSTS` (`JSON.stringify(domain)`). -/
def containerEnvironment (env : Env) (rdsEndpoint : String) : List (String × POutput) :=
  [("DEBUG", pplain "on"),
   ("DATABASE_URL", rdsConnectionUrl env rdsEndpoint),
   ("ALLOWED_HOSTS", pplain ("\"" ++ domain env ++ "\""))]

/-- Modelled from the spec: how the State Store serializes a value — a secret
value is persisted only through the provider's encryption (`ciphertext`), a
plain value in plaintext.  The store/log serializer is part of the external
engine, not of this repository. -/
inductive StoredValue where
  | plaintext (s : String)
  | ciphertext (blob : String)
deriving DecidableEq, Repr

/-- Modelled from the spec: serialization of an output value into the State
Store (or a log line), given the provider's encryption function `enc`. -/
def storeOutput (enc : String → String) (o : POutput) : StoredValue :=
  if o.isSecret then .ciphertext (enc o.val) else .plaintext o.val

/-- Whether a stored value is in encrypted / provider-opaque form. -/
def StoredValue.isOpaque : StoredValue → Bool
  | .plaintext _ => false
  | .ciphertext _ => true

/-- One ingress or egress rule of a security group. -/
structure SecRule where
  protocol : String
  fromPort : Nat
  toPort : Nat
  cidrBlocks : List String
deriving DecidableEq, Repr

/-- The ingress rules of `scorer-db-secgrp` as declared in the source. -/
def db_secgrp_ingress : List SecRule :=
  [⟨"tcp", 5432, 5432, ["0.0.0.0/0"]⟩]

/-- The egress rules of `scorer-db-secgrp` as declared in the source. -/
def db_secgrp_egress : List SecRule :=
  [⟨"-1", 0, 0, ["0.0.0.0/0"]⟩]

/-- Every resource instantiated by the program (constructor calls that are not
commented out), as (resource type, logical name) pairs in source order.  The
commented-out `ceramicStateStore` (`aws.efs.FileSystem`) and `ecsTarget`
(`aws.appautoscaling.Target`) blocks declare nothing and are absent. -/
def declaredResources (env : Env) : List (String × String) :=
  [("awsx.ec2.Vpc", "scorer"),
   ("aws.rds.SubnetGroup", "scorer-db-subnet"),
   ("aws.ec2.SecurityGroup", "scorer-db-secgrp"),
   ("aws.rds.Instance", "scorer-db"),
   ("awsx.ecs.Cluster", "scorer"),
   ("aws.acm.Certificate", "cert"),
   ("aws.route53.Record", domain env ++ "-validation"),
   ("aws.acm.CertificateValidation", "certificateValidation"),
   ("awsx.lb.ApplicationLoadBalancer", "scorer-service"),
   ("awsx.lb.Listener", "web-listener"),
   ("awsx.lb.TargetGroup", "scorer-target"),
   ("awsx.lb.Listener", "scorer-listener"),
   ("aws.route53.Record", "scorer"),
   ("aws.iam.Role", "dpoppEcsRole"),
   ("awsx.ecs.FargateService", "scorer")]

/-- The redirect block of a listener default action. -/
structure RedirectSpec where
  protocol : String
  port : String
  statusCode : String
deriving DecidableEq, Repr

/-- A listener default action: an HTTP redirect, or forwarding to a target
group. -/
inductive ListenerAction where
  | redirect (r : RedirectSpec)
  | forwardTo (targetGroup : String)
deriving DecidableEq, Repr

/-- A load-balancer listener as declared. -/
structure Listener where
  port : Nat
  protocol : String
  defaultActions : List ListenerAction
deriving DecidableEq, Repr

/-- `alb.createListener("web-listener", { port: 80, protocol: "HTTP", defaultAction: redirect to HTTPS 443 HTTP_301 })`. -/
def httpListener : Listener :=
  ⟨80, "HTTP", [.redirect ⟨"HTTPS", "443", "HTTP_301"⟩]⟩

/-- `target.createListener("scorer-listener", { port: 443, certificateArn: ... })`:
an HTTPS listener forwarding to the `scorer-target` target group. -/
def httpsListener : Listener :=
  ⟨443, "HTTPS", [.forwardTo "scorer-target"]⟩

/-- All listeners the program creates on the application load balancer. -/
def albListeners : List Listener := [httpListener, httpsListener]

/-- One statement of an IAM policy document. -/
structure PolicyStatement where
  actions : List String
  effect : String
  principalService : Option String
  resource : Option String
deriving DecidableEq, Repr

/-- An IAM policy document. -/
structure PolicyDoc where
  version : String
  statements : List PolicyStatement
deriving DecidableEq, Repr

/-- An inline policy attached to a role. -/
structure InlinePolicy where
  policyName : String
  policy : PolicyDoc
deriving DecidableEq, Repr

/-- An IAM role declaration. -/
structure IamRole where
  assumeRolePolicy : PolicyDoc
  inlinePolicies : List InlinePolicy
  managedPolicyArns : List String
deriving DecidableEq, Repr

/-- The `dpoppEcsRole` IAM role exactly as declared in the source: a trust
policy with the single `sts:AssumeRole` statement for the service principal
`ecs-tasks.amazonaws.com`, one inline policy `allow_iam_secrets_access` whose
single statement allows `secretsmanager:GetSecretValue` on
`SCORER_SERVER_SSM_ARN`, and one managed policy ARN. -/
def dpoppEcsRole (env : Env) : IamRole :=
  { assumeRolePolicy :=
      ⟨"2012-10-17",
       [{ actions := ["sts:AssumeRole"]
          effect := "Allow"
          principalService := some "ecs-tasks.amazonaws.com"
          resource := none }]⟩
    inlinePolicies :=
      [{ policyName := "allow_iam_secrets_access"
         policy :=
           ⟨"2012-10-17",
            [{ actions := ["secretsmanager:GetSecretValue"]
               effect := "Allow"
               principalService := none
               resource := some (SCORER_SERVER_SSM_ARN env) }]⟩ }]
    managedPolicyArns :=
      ["arn:aws:iam::aws:policy/service-role/AmazonECSTaskExecutionRolePolicy"] }

/-! ## Part 2: the provisioning engine, modelled from the specification -/

/-- Modelled from the spec: one resource declaration fed to the Resource Graph
Builder — an identifier, the hash of its declared configuration, and the
identifiers of the resources whose outputs it references (its producers).
The engine itself is not part of this repository's sources. -/
structure Decl where
  id : Nat
  configHash : Nat
  refs : List Nat
deriving DecidableEq, Repr

/-- Modelled from the spec: the edges a declaration list induces — a reference
to `nodeX.outputY` in the configuration of `d` creates an edge
`(nodeX, d.id)` from producer to consumer. -/
def declEdges (ds : List Decl) : List (Nat × Nat) :=
  ds.flatMap (fun d => d.refs.map (fun r => (r, d.id)))

/-- Modelled from the spec: the resource graph — one node identifier per
declaration, plus the producer-to-consumer edges. -/
structure Graph where
  nodeIds : List Nat
  edges : List (Nat × Nat)
deriving DecidableEq, Repr

/-- A node `n` has an incoming edge from the node set `r`. -/
def HasIncoming (edges : List (Nat × Nat)) (r : List Nat) (n : Nat) : Prop :=
  ∃ e ∈ edges, e.2 = n ∧ e.1 ∈ r

instance (edges : List (Nat × Nat)) (r : List Nat) (n : Nat) :
    Decidable (HasIncoming edges r n) := by
  unfold HasIncoming; infer_instance

/-- One peeling step of Kahn's algorithm: drop every current source (node with
no incoming edge from the remaining set), keeping the nodes that still have an
incoming edge. -/
def peel (edges : List (Nat × Nat)) (r : List Nat) : List Nat :=
  r.filter (fun n => decide (HasIncoming edges r n))

/-- Iterated peeling. -/
def peelIter (edges : List (Nat × Nat)) (r : List Nat) : Nat → List Nat
  | 0 => r
  | k + 1 => peel edges (peelIter edges r k)

/-- Modelled from the spec: the depth-first / peeling cycle check of the Graph
Builder — after as many peeling steps as there are nodes, only nodes on cycles
remain. -/
def hasCycleB (nodes : List Nat) (edges : List (Nat × Nat)) : Bool :=
  !(peelIter edges nodes nodes.length).isEmpty

/-- A directed graph given by an edge list contains a cycle: some closed
nonempty walk follows its edges. -/
def HasCycle (edges : List (Nat × Nat)) : Prop :=
  ∃ (m : Nat) (f : Nat → Nat), 0 < m ∧ f 0 = f m ∧ ∀ i < m, (f i, f (i + 1)) ∈ edges

/-- Modelled from the spec: build-time failures of the Resource Graph Builder. -/
inductive BuildError where
  | CycleError
  | DuplicateIdentifierError
deriving DecidableEq, Repr

/-- Modelled from the spec: the Resource Graph Builder — scans the declaration
list, infers the reference edges, fails with `CycleError` on a cyclic graph and
with `DuplicateIdentifierError` when two declarations share an identifier, and
otherwise returns the graph.  A build-time failure mutates nothing: the builder
is a pure function that does not touch the State Store. -/
def buildGraph (ds : List Decl) : Except BuildError Graph :=
  if hasCycleB (ds.map Decl.id) (declEdges ds) then .error .CycleError
  else if (ds.map Decl.id).Nodup then .ok ⟨ds.map Decl.id, declEdges ds⟩
  else .error .DuplicateIdentifierError

instance (ids : List Nat) : Decidable ids.Nodup := List.nodupDecidable ids

/-! ### Kahn peeling: basic lemmas -/

theorem mem_peel {edges : List (Nat × Nat)} {r : List Nat} {n : Nat} :
    n ∈ peel edges r ↔ n ∈ r ∧ HasIncoming edges r n := by
  simp [peel]

theorem mem_of_mem_peelIter_succ {edges : List (Nat × Nat)} {r : List Nat} {k n : Nat}
    (h : n ∈ peelIter edges r (k + 1)) : n ∈ peelIter edges r k :=
  (mem_peel.mp h).1

theorem peelIter_anti {edges : List (Nat × Nat)} {r : List Nat} {j i : Nat}
    (hji : j ≤ i) {n : Nat} (h : n ∈ peelIter edges r i) : n ∈ peelIter edges r j := by
  induction i with
  | zero => simpa [Nat.le_zero.mp hji] using h
  | succ i ih =>
    rcases Nat.le_succ_iff.mp hji with h' | h'
    · exact ih h' (mem_of_mem_peelIter_succ h)
    · simpa [h'] using h

theorem peel_fix_iff {edges : List (Nat × Nat)} {r : List Nat} :
    peel edges r = r ↔ ∀ n ∈ r, HasIncoming edges r n := by
  constructor
  · intro h n hn
    have := mem_peel.mp (h ▸ hn)
    exact this.2
  · intro h
    apply List.filter_eq_self.mpr
    intro n hn
    exact decide_eq_true (h n hn)

theorem peelIter_stable {edges : List (Nat × Nat)} {r : List Nat} {k : Nat}
    (hfix : peel edges (peelIter edges r k) = peelIter edges r k) :
    ∀ m, k ≤ m → peelIter edges r m = peelIter edges r k := by
  intro m hkm
  induction m with
  | zero => simp [Nat.le_zero.mp hkm]
  | succ m ih =>
    rcases Nat.le_succ_iff.mp hkm with h' | h'
    · have := ih h'
      show peel edges (peelIter edges r m) = _
      rw [this, hfix]
    · simp [h']

theorem length_peel_le (edges : List (Nat × Nat)) (r : List Nat) :
    (peel edges r).length ≤ r.length :=
  List.length_filter_le _ r

theorem peel_ne_lt {edges : List (Nat × Nat)} {r : List Nat}
    (h : peel edges r ≠ r) : (peel edges r).length < r.length := by
  rcases Nat.lt_or_ge (peel edges r).length r.length with h' | h'
  · exact h'
  · exfalso
    apply h
    have hlen : (peel edges r).length = r.length :=
      Nat.le_antisymm (length_peel_le edges r) h'
    unfold peel at hlen ⊢
    exact List.filter_eq_self.mpr ((List.filter_length_eq_length).mp hlen)

theorem eventually_fix (edges : List (Nat × Nat)) (r : List Nat) :
    peel edges (peelIter edges r r.length) = peelIter edges r r.length := by
  by_cases hex : ∃ j ≤ r.length, peel edges (peelIter edges r j) = peelIter edges r j
  · obtain ⟨j, hj, hfix⟩ := hex
    have h1 := peelIter_stable hfix r.length hj
    have h2 := peelIter_stable hfix (r.length + 1) (Nat.le_succ_of_le hj)
    show peelIter edges r (r.length + 1) = peelIter edges r r.length
    rw [h1, h2]
  · push_neg at hex
    exfalso
    have hdec : ∀ j ≤ r.length, (peelIter edges r j).length ≤ r.length - j := by
      intro j hj
      induction j with
      | zero => simp [peelIter]
      | succ j ih =>
        have hj' : j ≤ r.length := Nat.le_of_succ_le hj
        have hne := hex j hj'
        have hlt : (peel edges (peelIter edges r j)).length < (peelIter edges r j).length :=
          peel_ne_lt hne
        have := ih hj'
        have : (peelIter edges r (j + 1)).length < r.length - j :=
          Nat.lt_of_lt_of_le hlt this
        omega
    have hz : (peelIter edges r r.length).length = 0 := by
      have := hdec r.length (Nat.le_refl _)
      omega
    have hnil : peelIter edges r r.length = [] := List.length_eq_zero.mp hz
    have := hex r.length (Nat.le_refl _)
    apply this
    rw [hnil]
    rfl

/-! ### Kahn peeling detects exactly the cyclic graphs -/

theorem cycle_of_peel_nonempty {nodes : List Nat} {edges : List (Nat × Nat)}
    (h : peelIter edges nodes nodes.length ≠ []) : HasCycle edges := by
  classical
  set r := peelIter edges nodes nodes.length with hr
  have hfix : peel edges r = r := eventually_fix edges nodes
  have hall : ∀ n ∈ r, HasIncoming edges r n := peel_fix_iff.mp hfix
  obtain ⟨x0, hx0⟩ := List.exists_mem_of_ne_nil r h
  -- pick a predecessor inside `r` for every node of `r`
  let pred : Nat → Nat := fun n =>
    if hn : HasIncoming edges r n then hn.choose.1 else 0
  have hpred : ∀ n ∈ r, pred n ∈ r ∧ (pred n, n) ∈ edges := by
    intro n hn
    have hinc := hall n hn
    have hspec := hinc.choose_spec
    obtain ⟨hmem, hsnd, hfst⟩ := hspec
    constructor
    · simp only [pred, dif_pos hinc]
      exact hfst
    · simp only [pred, dif_pos hinc]
      have : hinc.choose = (hinc.choose.1, hinc.choose.2) := rfl
      rw [show ((hinc.choose.1, n) : Nat × Nat) = hinc.choose by
        rw [this]; exact congrArg _ hsnd.symm]
      exact hmem
  -- iterate the predecessor choice
  let g : Nat → Nat := fun k => Nat.rec x0 (fun _ acc => pred acc) k
  have hg0 : g 0 = x0 := rfl
  have hgsucc : ∀ k, g (k + 1) = pred (g k) := fun _ => rfl
  have hgmem : ∀ k, g k ∈ r := by
    intro k
    induction k with
    | zero => exact hx0
    | succ k ih =>
      rw [hgsucc]
      exact (hpred (g k) ih).1
  have hgedge : ∀ k, (g (k + 1), g k) ∈ edges := by
    intro k
    rw [hgsucc]
    exact (hpred (g k) (hgmem k)).2
  -- pigeonhole: two equal values among r.length + 1 iterates
  have hcard : r.toFinset.card < (Finset.range (r.length + 1)).card := by
    rw [Finset.card_range]
    exact Nat.lt_succ_of_le r.toFinset_card_le
  have hmapsto : ∀ k ∈ Finset.range (r.length + 1), g k ∈ r.toFinset := by
    intro k _
    exact List.mem_toFinset.mpr (hgmem k)
  obtain ⟨i, hi, j, hj, hij, hgij⟩ :=
    Finset.exists_ne_map_eq_of_card_lt_of_maps_to hcard hmapsto
  -- normalize so that i < j
  rcases Nat.lt_or_ge i j with hlt | hge
  · refine ⟨j - i, fun t => g (j - t), by omega, ?_, ?_⟩
    · show g (j - 0) = g (j - (j - i))
      have h0 : j - 0 = j := by omega
      have h1 : j - (j - i) = i := by omega
      rw [h0, h1]
      exact hgij.symm
    · intro t ht
      show (g (j - t), g (j - (t + 1))) ∈ edges
      have h1 : j - t = (j - (t + 1)) + 1 := by omega
      rw [h1]
      exact hgedge (j - (t + 1))
  · have hlt : j < i := by omega
    refine ⟨i - j, fun t => g (i - t), by omega, ?_, ?_⟩
    · show g (i - 0) = g (i - (i - j))
      have h0 : i - 0 = i := by omega
      have h1 : i - (i - j) = j := by omega
      rw [h0, h1]
      exact hgij
    · intro t ht
      show (g (i - t), g (i - (t + 1))) ∈ edges
      have h1 : i - t = (i - (t + 1)) + 1 := by omega
      rw [h1]
      exact hgedge (i - (t + 1))

theorem peel_nonempty_of_cycle {nodes : List Nat} {edges : List (Nat × Nat)}
    (hcl : ∀ e ∈ edges, e.1 ∈ nodes ∧ e.2 ∈ nodes)
    (hcyc : HasCycle edges) : peelIter edges nodes nodes.length ≠ [] := by
  obtain ⟨m, f, hm, hf0, hedge⟩ := hcyc
  -- every walk node has a predecessor that is also a walk node
  have hpred : ∀ i < m, ∃ i' < m, (f i', f i) ∈ edges := by
    intro i hi
    match i with
    | 0 =>
      refine ⟨m - 1, by omega, ?_⟩
      have h1 := hedge (m - 1) (by omega)
      have h2 : (m - 1) + 1 = m := by omega
      rw [h2] at h1
      rw [hf0]
      exact h1
    | i + 1 =>
      exact ⟨i, by omega, hedge i (by omega)⟩
  have hmem : ∀ k, ∀ i < m, f i ∈ peelIter edges nodes k := by
    intro k
    induction k with
    | zero =>
      intro i hi
      obtain ⟨i', _, he⟩ := hpred i hi
      exact (hcl _ he).2
    | succ k ih =>
      intro i hi
      apply mem_peel.mpr
      refine ⟨ih i hi, ?_⟩
      obtain ⟨i', hi', he⟩ := hpred i hi
      exact ⟨(f i', f i), he, rfl, ih i' hi'⟩
  exact List.ne_nil_of_mem (hmem nodes.length 0 hm)

theorem hasCycleB_iff {nodes : List Nat} {edges : List (Nat × Nat)}
    (hcl : ∀ e ∈ edges, e.1 ∈ nodes ∧ e.2 ∈ nodes) :
    hasCycleB nodes edges = true ↔ HasCycle edges := by
  unfold hasCycleB
  rw [Bool.not_eq_true', List.isEmpty_eq_false_iff_exists_mem]
  constructor
  · intro h
    exact cycle_of_peel_nonempty (by
      obtain ⟨x, hx⟩ := h
      exact List.ne_nil_of_mem hx)
  · intro h
    have := peel_nonempty_of_cycle hcl h
    exact List.exists_mem_of_ne_nil _ this

/-! ### Diff Engine -/

/-- Modelled from the spec: the operation the Diff Engine assigns to a node. -/
inductive Op where
  | Create
  | Update
  | Delete
  | Replace
  | NoOp
deriving DecidableEq, Repr

/-- Modelled from the spec: a persisted state record — last-applied
configuration hash, provider-assigned external identifier, last-known
outputs. -/
structure StateRecord where
  configHash : Nat
  externalId : Nat
  outputs : Nat
deriving DecidableEq, Repr

/-- The State Store contents: an association of node identifiers to records. -/
abbrev Store : Type := List (Nat × StateRecord)

/-- Look a node's record up in the store. -/
def lookupRec (s : Store) (n : Nat) : Option StateRecord :=
  (s.find? (fun p => p.1 == n)).map Prod.snd

/-- Write (insert or overwrite) a node's record. -/
def writeRec (s : Store) (n : Nat) (r : StateRecord) : Store :=
  (n, r) :: s.filter (fun p => p.1 != n)

/-- The record a successful apply of declaration `d` persists: the declared
configuration hash, with the provider-assigned identity and outputs
(deterministic in this model). -/
def mkRecord (d : Decl) : StateRecord :=
  ⟨d.configHash, d.id, d.configHash⟩

/-- The declaration with identifier `n`, if any. -/
def declFor (ds : List Decl) (n : Nat) : Option Decl :=
  ds.find? (fun d => d.id == n)

/-- Modelled from the spec: the Diff Engine's per-node classification.  No
record: `Create`.  Record with an identical hash: `NoOp`.  Record with a
differing hash: `Replace` when the provider capability metadata `repl` says
some differing property forces recreation, else `Update`. -/
def diffOp (repl : Decl → StateRecord → Bool) (d : Decl) : Option StateRecord → Op
  | none => .Create
  | some r => if d.configHash = r.configHash then .NoOp
              else if repl d r then .Replace else .Update

/-- The operation assigned to node `n` of the declaration set for a run that
diffs against `store` (nodes without a declaration get `NoOp`; they are not
graph nodes). -/
def opsFor (repl : Decl → StateRecord → Bool) (ds : List Decl) (store : Store) :
    Nat → Op :=
  fun n =>
    match declFor ds n with
    | some d => diffOp repl d (lookupRec store n)
    | none => .NoOp

/-- Modelled from the spec: the ChangeSet of a run — one entry per declared
node, plus a `Delete` entry for every stored record whose declaration was
removed from the input. -/
def changeSet (repl : Decl → StateRecord → Bool) (ds : List Decl) (store : Store) :
    List (Nat × Op) :=
  ds.map (fun d => (d.id, diffOp repl d (lookupRec store d.id)))
    ++ (store.filter (fun p => !((ds.map Decl.id).contains p.1))).map
        (fun p => (p.1, Op.Delete))

/-! ### Dependency Scheduler -/

/-- Node `n` is scheduled in wave `k`: it is still present after `k` peeling
steps but gone after `k + 1` — i.e. all its producers are gone before wave `k`
begins, and it is processed in wave `k`. -/
def inWave (edges : List (Nat × Nat)) (nodes : List Nat) (k n : Nat) : Prop :=
  n ∈ peelIter edges nodes k ∧ n ∉ peelIter edges nodes (k + 1)

instance (edges : List (Nat × Nat)) (nodes : List Nat) (k n : Nat) :
    Decidable (inWave edges nodes k n) := by
  unfold inWave; infer_instance

/-- Modelled from the spec: deletions are scheduled against the reversed
graph, so that consumers are deleted before producers. -/
def flipEdges (edges : List (Nat × Nat)) : List (Nat × Nat) :=
  edges.map (fun e => (e.2, e.1))

/-- For an edge producer→consumer, the producer's wave strictly precedes the
consumer's wave. -/
theorem wave_lt {edges : List (Nat × Nat)} {nodes : List Nat} {p c i j : Nat}
    (he : (p, c) ∈ edges)
    (hp : inWave edges nodes i p) (hc : inWave edges nodes j c) : i < j := by
  by_contra hji
  push_neg at hji
  have hcj : c ∈ peelIter edges nodes j := hc.1
  have hcj1 : c ∉ peelIter edges nodes (j + 1) := hc.2
  have hnoinc : ¬ HasIncoming edges (peelIter edges nodes j) c := by
    intro hinc
    exact hcj1 (mem_peel.mpr ⟨hcj, hinc⟩)
  apply hnoinc
  exact ⟨(p, c), he, rfl, peelIter_anti hji hp.1⟩

/-! ### Execution Engine -/

/-- Modelled from the spec: the lifecycle state of a node
(`Planned → Creating/Updating/Deleting → Created/Updated/Deleted`, or
`Failed`). -/
inductive NState where
  | Planned
  | Creating
  | Updating
  | Deleting
  | Created
  | Updated
  | Deleted
  | Failed
deriving DecidableEq, Repr

/-- The run-internal status of a node: not yet processed, completed
successfully, failed at the provider, or skipped because a producer did not
complete. -/
inductive Status where
  | Pending
  | Done
  | Fail
  | Skipped
deriving DecidableEq, Repr

/-- The terminal lifecycle state a node is intended to reach when its
operation succeeds (a `NoOp` node has nothing to execute and stays
`Planned`). -/
def opSuccessState : Op → NState
  | .Create => .Created
  | .Update => .Updated
  | .Replace => .Created
  | .Delete => .Deleted
  | .NoOp => .Planned

/-- The lifecycle state a node ends the run in, given its run status. -/
def lifecycle (ops : Nat → Op) (st : Nat → Status) (n : Nat) : NState :=
  match st n with
  | .Done => opSuccessState (ops n)
  | .Fail => .Failed
  | .Pending => .Planned
  | .Skipped => .Planned

/-- The mutable state of a run: each node's status and the State Store
contents (updated immediately after every successful node operation). -/
structure ExecState where
  status : Nat → Status
  store : Store

/-- Pointwise update of a status map. -/
def updStatus (f : Nat → Status) (n : Nat) (v : Status) : Nat → Status :=
  fun m => if m = n then v else f m

/-- All producers of `n` have completed successfully. -/
def DepsDone (edges : List (Nat × Nat)) (st : Nat → Status) (n : Nat) : Prop :=
  ∀ e ∈ edges, e.2 = n → st e.1 = .Done

instance (edges : List (Nat × Nat)) (st : Nat → Status) (n : Nat) :
    Decidable (DepsDone edges st n) := by
  unfold DepsDone; infer_instance

/-- Modelled from the spec: the Execution Engine's handling of one node.  If
some producer has not completed, the node is skipped (`DependencyFailedError`;
it stays `Planned`).  Otherwise a `NoOp` node completes without a provider
call; any other node calls the provider: on failure it is marked failed, on
success its state record is written to the store immediately. -/
def execNode (ds : List Decl) (edges : List (Nat × Nat)) (fails : Nat → Bool)
    (ops : Nat → Op) (σ : ExecState) (n : Nat) : ExecState :=
  if DepsDone edges σ.status n then
    if ops n = .NoOp then { σ with status := updStatus σ.status n .Done }
    else if fails n then { σ with status := updStatus σ.status n .Fail }
    else { status := updStatus σ.status n .Done
           store := match declFor ds n with
                    | some d => writeRec σ.store n (mkRecord d)
                    | none => σ.store }
  else { σ with status := updStatus σ.status n .Skipped }

/-- The initial run state over a given store: every node `Planned`/pending. -/
def initExec (s0 : Store) : ExecState := ⟨fun _ => .Pending, s0⟩

/-- Modelled from the spec: executing the scheduled nodes in order (any
serialization of the scheduler's waves). -/
def runNodes (ds : List Decl) (edges : List (Nat × Nat)) (fails : Nat → Bool)
    (ops : Nat → Op) (order : List Nat) (σ : ExecState) : ExecState :=
  order.foldl (execNode ds edges fails ops) σ

/-- The provider behaviour of a run in which every operation succeeds. -/
def noFail : Nat → Bool := fun _ => false

/-- Modelled from the spec: the deletion phase of a successful apply — records
whose declarations were removed are deleted (in reverse dependency order,
which does not affect the resulting store contents). -/
def finalizeStore (ds : List Decl) (s : Store) : Store :=
  s.filter (fun p => (ds.map Decl.id).contains p.1)

/-- A full successful apply of the declaration set over initial store `s0`:
diff, execute every node in scheduled order, then delete stale records. -/
def applyFull (repl : Decl → StateRecord → Bool) (ds : List Decl)
    (edges : List (Nat × Nat)) (order : List Nat) (s0 : Store) : Store :=
  finalizeStore ds (runNodes ds edges noFail (opsFor repl ds s0) order (initExec s0)).store

/-- The edge relation of an edge list. -/
def EdgeOf (edges : List (Nat × Nat)) (a b : Nat) : Prop := (a, b) ∈ edges

/-! ### Helper lemmas on lists, stores and topological orders -/

theorem mem_take_of_indexOf_lt {l : List Nat} {a : Nat} {k : Nat}
    (ha : a ∈ l) (h : l.indexOf a < k) : a ∈ l.take k := by
  induction l generalizing k with
  | nil => cases ha
  | cons b t ih =>
    match k with
    | 0 => omega
    | k + 1 =>
      by_cases hba : b = a
      · simp [hba, List.take]
      · have h1 : (b :: t).indexOf a = t.indexOf a + 1 :=
          List.indexOf_cons_ne t hba
        have h2 : t.indexOf a < k := by omega
        have h3 : a ∈ t := by
          rcases List.mem_cons.mp ha with h' | h'
          · exact absurd h'.symm hba
          · exact h'
        simpa [List.take] using Or.inr (ih h3 h2)

theorem indexOf_middle_le (pre : List Nat) (n : Nat) (suf : List Nat) :
    (pre ++ n :: suf).indexOf n ≤ pre.length := by
  by_cases h : n ∈ pre
  · rw [List.indexOf_append_of_mem h]
    exact Nat.le_of_lt (List.indexOf_lt_length.mpr h)
  · rw [List.indexOf_append_of_not_mem h]
    simp

/-- Every producer of the node about to be processed already lies in the
processed prefix, when the order respects the edges. -/
theorem producers_in_pre {edges : List (Nat × Nat)} {order pre suf : List Nat} {n : Nat}
    (horder : order = pre ++ n :: suf)
    (htopo : ∀ e ∈ edges, order.indexOf e.1 < order.indexOf e.2) :
    ∀ e ∈ edges, e.2 = n → e.1 ∈ pre := by
  intro e he h2
  have h := htopo e he
  have hn : order.indexOf e.2 ≤ pre.length := by
    rw [h2, horder]
    exact indexOf_middle_le pre n suf
  have h1 : order.indexOf e.1 < pre.length := Nat.lt_of_lt_of_le h hn
  have hlen : pre.length ≤ order.length := by
    rw [horder]; simp
  have hmem : e.1 ∈ order :=
    List.indexOf_lt_length.mp (Nat.lt_of_lt_of_le h1 hlen)
  have htake : e.1 ∈ order.take pre.length := mem_take_of_indexOf_lt hmem h1
  rw [horder, List.take_left'] at htake
  · exact htake
  · rfl

/-- A topological order admits no larger index on the left end of a reachable
pair. -/
theorem indexOf_le_of_reflTransGen {edges : List (Nat × Nat)} {order : List Nat}
    (htopo : ∀ e ∈ edges, order.indexOf e.1 < order.indexOf e.2)
    {a b : Nat} (h : Relation.ReflTransGen (EdgeOf edges) a b) :
    order.indexOf a ≤ order.indexOf b := by
  induction h with
  | refl => exact Nat.le_refl _
  | tail hab hbc ih =>
    exact Nat.le_of_lt (Nat.lt_of_le_of_lt ih (htopo _ hbc))

/-- A graph admitting a topological order has no nonempty closed walk through
any fixed node. -/
theorem not_transGen_self {edges : List (Nat × Nat)} {order : List Nat}
    (htopo : ∀ e ∈ edges, order.indexOf e.1 < order.indexOf e.2)
    {a : Nat} : ¬ Relation.TransGen (EdgeOf edges) a a := by
  intro h
  obtain ⟨b, hab, hba⟩ := Relation.TransGen.tail'_iff.mp h
  have h1 := indexOf_le_of_reflTransGen htopo hab
  have h2 : order.indexOf b < order.indexOf a := htopo _ hba
  omega

theorem runNodes_append (ds : List Decl) (edges : List (Nat × Nat))
    (fails : Nat → Bool) (ops : Nat → Op) (l1 l2 : List Nat) (σ : ExecState) :
    runNodes ds edges fails ops (l1 ++ l2) σ
      = runNodes ds edges fails ops l2 (runNodes ds edges fails ops l1 σ) :=
  List.foldl_append _ _ _ _

/-- Generic induction principle for a run: an invariant indexed by the
processed prefix that is preserved by each node step holds at the end. -/
theorem runNodes_inv (ds : List Decl) (edges : List (Nat × Nat))
    (fails : Nat → Bool) (ops : Nat → Op) (order : List Nat)
    (P : List Nat → ExecState → Prop)
    (step : ∀ pre n suf σ, order = pre ++ n :: suf → P pre σ →
      P (pre ++ [n]) (execNode ds edges fails ops σ n)) :
    ∀ suf pre σ, order = pre ++ suf → P pre σ →
      P order (runNodes ds edges fails ops suf σ) := by
  intro suf
  induction suf with
  | nil =>
    intro pre σ horder hP
    rw [List.append_nil] at horder
    rw [horder]
    exact hP
  | cons n suf ih =>
    intro pre σ horder hP
    show P order (runNodes ds edges fails ops suf (execNode ds edges fails ops σ n))
    apply ih (pre ++ [n])
    · rw [horder, List.append_assoc]
      rfl
    · exact step pre n suf σ horder hP

/-- Statuses of nodes other than the processed one are untouched. -/
theorem execNode_status_other (ds : List Decl) (edges : List (Nat × Nat))
    (fails : Nat → Bool) (ops : Nat → Op) (σ : ExecState) (n m : Nat)
    (hmn : m ≠ n) :
    (execNode ds edges fails ops σ n).status m = σ.status m := by
  unfold execNode
  by_cases h1 : DepsDone edges σ.status n <;>
    by_cases h2 : ops n = Op.NoOp <;>
      by_cases h3 : fails n <;>
        simp [h1, h2, h3, updStatus, hmn]

theorem lookupRec_cons_eq {q : Nat × StateRecord} {t : Store} {n : Nat}
    (h : q.1 = n) : lookupRec (q :: t) n = some q.2 := by
  unfold lookupRec
  rw [List.find?_cons_of_pos]
  · rfl
  · simp [h]

theorem lookupRec_cons_ne {q : Nat × StateRecord} {t : Store} {n : Nat}
    (h : q.1 ≠ n) : lookupRec (q :: t) n = lookupRec t n := by
  unfold lookupRec
  rw [List.find?_cons_of_neg]
  simp [h]

theorem lookupRec_writeRec (s : Store) (n : Nat) (r : StateRecord) (m : Nat) :
    lookupRec (writeRec s n r) m = if m = n then some r else lookupRec s m := by
  by_cases hmn : m = n
  · subst hmn
    rw [if_pos rfl]
    exact lookupRec_cons_eq rfl
  · rw [if_neg hmn]
    have hne : ((n, r) : Nat × StateRecord).1 ≠ m := fun h => hmn h.symm
    show lookupRec ((n, r) :: s.filter (fun p => p.1 != n)) m = lookupRec s m
    rw [lookupRec_cons_ne hne]
    induction s with
    | nil => rfl
    | cons q t ih =>
      by_cases hq : q.1 = n
      · have hf : ¬ ((q.1 != n) = true) := by simp [hq]
        rw [List.filter_cons, if_neg hf]
        have hqm : q.1 ≠ m := by rw [hq]; exact fun h => hmn h.symm
        rw [lookupRec_cons_ne hqm]
        exact ih
      · have hf : (q.1 != n) = true := by simp [hq]
        rw [List.filter_cons, if_pos hf]
        by_cases hqm : q.1 = m
        · rw [lookupRec_cons_eq hqm, lookupRec_cons_eq hqm]
        · rw [lookupRec_cons_ne hqm, lookupRec_cons_ne hqm]
          exact ih

theorem lookupRec_filter (s : Store) (f : Nat → Bool) (n : Nat) :
    lookupRec (s.filter (fun p => f p.1)) n
      = if f n then lookupRec s n else none := by
  induction s with
  | nil => simp [lookupRec]
  | cons q t ih =>
    by_cases hqn : q.1 = n
    · by_cases hfn : f n
      · have hq : f q.1 = true := by rw [hqn]; exact hfn
        rw [List.filter_cons, if_pos hq, lookupRec_cons_eq hqn, if_pos hfn,
          lookupRec_cons_eq hqn]
      · have hq : ¬ (f q.1 = true) := by rw [hqn]; exact hfn
        rw [List.filter_cons, if_neg hq, ih, if_neg hfn, if_neg hfn]
    · by_cases hq : f q.1
      · rw [List.filter_cons, if_pos hq, lookupRec_cons_ne hqn, lookupRec_cons_ne hqn]
        exact ih
      · rw [List.filter_cons, if_neg hq, ih, lookupRec_cons_ne hqn]

/-! ### The run invariant of a run with a single failing node -/

/-- Invariant of a partially executed run in which exactly the node `N` fails:
unprocessed nodes are pending, processed nodes unreachable from `N` have
completed, `N` itself has failed, and processed proper dependents of `N` were
skipped. -/
def FailInv (edges : List (Nat × Nat)) (N : Nat) (done : List Nat) (σ : ExecState) : Prop :=
  (∀ m, m ∉ done → σ.status m = .Pending) ∧
  (∀ m ∈ done, ¬ Relation.ReflTransGen (EdgeOf edges) N m → σ.status m = .Done) ∧
  (N ∈ done → σ.status N = .Fail) ∧
  (∀ m ∈ done, Relation.ReflTransGen (EdgeOf edges) N m → m ≠ N → σ.status m = .Skipped)

theorem failInv_step (ds : List Decl) (edges : List (Nat × Nat)) (fails : Nat → Bool)
    (ops : Nat → Op) (order : List Nat) (N : Nat)
    (htopo : ∀ e ∈ edges, order.indexOf e.1 < order.indexOf e.2)
    (hfail : ∀ m, fails m = true ↔ m = N)
    (hops : ops N ≠ .NoOp) :
    ∀ pre n suf σ, order = pre ++ n :: suf → FailInv edges N pre σ →
      FailInv edges N (pre ++ [n]) (execNode ds edges fails ops σ n) := by
  intro pre n suf σ horder hP
  obtain ⟨hPend, hDone, hFailN, hSkip⟩ := hP
  have hprod : ∀ e ∈ edges, e.2 = n → e.1 ∈ pre := producers_in_pre horder htopo
  by_cases hR : Relation.ReflTransGen (EdgeOf edges) N n
  · by_cases hnN : n = N
    · subst hnN
      have hdeps : DepsDone edges σ.status n := by
        intro e he h2
        have hp : e.1 ∈ pre := hprod e he h2
        have hnR : ¬ Relation.ReflTransGen (EdgeOf edges) n e.1 := by
          intro hR'
          have h1 := indexOf_le_of_reflTransGen htopo hR'
          have h2' : order.indexOf e.1 < order.indexOf e.2 := htopo e he
          rw [h2] at h2'
          omega
        exact hDone e.1 hp hnR
      have hfn : fails n = true := (hfail n).mpr rfl
      have hexec : execNode ds edges fails ops σ n
          = { σ with status := updStatus σ.status n .Fail } := by
        unfold execNode
        rw [if_pos hdeps, if_neg hops, if_pos hfn]
      rw [hexec]
      refine ⟨?_, ?_, ?_, ?_⟩
      · intro m hm
        have hm1 : m ∉ pre := fun h => hm (List.mem_append_left _ h)
        have hm2 : m ≠ n := fun h => hm (List.mem_append_right _ (by simp [h]))
        simp only [updStatus, if_neg hm2]
        exact hPend m hm1
      · intro m hm hnRm
        have hm2 : m ≠ n := by
          intro h
          exact hnRm (h ▸ Relation.ReflTransGen.refl)
        rcases List.mem_append.mp hm with h' | h'
        · simp only [updStatus, if_neg hm2]
          exact hDone m h' hnRm
        · exact absurd (List.mem_singleton.mp h') hm2
      · intro _
        simp [updStatus]
      · intro m hm hRm hmN
        rcases List.mem_append.mp hm with h' | h'
        · simp only [updStatus, if_neg hmN]
          exact hSkip m h' hRm hmN
        · exact absurd (List.mem_singleton.mp h') hmN
    · obtain ⟨c, hRc, hcn⟩ : ∃ c, Relation.ReflTransGen (EdgeOf edges) N c ∧ EdgeOf edges c n := by
        rcases Relation.ReflTransGen.cases_tail hR with h' | h'
        · exact absurd h' hnN
        · exact h'
      have hc_pre : c ∈ pre := hprod (c, n) hcn rfl
      have hcnotDone : σ.status c ≠ .Done := by
        by_cases hcN : c = N
        · rw [hcN, hFailN (hcN ▸ hc_pre)]
          simp
        · rw [hSkip c hc_pre hRc hcN]
          simp
      have hndeps : ¬ DepsDone edges σ.status n :=
        fun hd => hcnotDone (hd (c, n) hcn rfl)
      have hexec : execNode ds edges fails ops σ n
          = { σ with status := updStatus σ.status n .Skipped } := by
        unfold execNode
        rw [if_neg hndeps]
      rw [hexec]
      refine ⟨?_, ?_, ?_, ?_⟩
      · intro m hm
        have hm1 : m ∉ pre := fun h => hm (List.mem_append_left _ h)
        have hm2 : m ≠ n := fun h => hm (List.mem_append_right _ (by simp [h]))
        simp only [updStatus, if_neg hm2]
        exact hPend m hm1
      · intro m hm hnRm
        have hm2 : m ≠ n := fun h => hnRm (h ▸ hR)
        rcases List.mem_append.mp hm with h' | h'
        · simp only [updStatus, if_neg hm2]
          exact hDone m h' hnRm
        · exact absurd (List.mem_singleton.mp h') hm2
      · intro hNmem
        have hNn : N ≠ n := fun h => hnN h.symm
        have hNpre : N ∈ pre := by
          rcases List.mem_append.mp hNmem with h' | h'
          · exact h'
          · exact absurd (List.mem_singleton.mp h') hNn
        simp only [updStatus, if_neg hNn]
        exact hFailN hNpre
      · intro m hm hRm hmN
        by_cases hm2 : m = n
        · simp [updStatus, hm2]
        · rcases List.mem_append.mp hm with h' | h'
          · simp only [updStatus, if_neg hm2]
            exact hSkip m h' hRm hmN
          · exact absurd (List.mem_singleton.mp h') hm2
  · have hnN : n ≠ N := fun h => hR (h ▸ Relation.ReflTransGen.refl)
    have hdeps : DepsDone edges σ.status n := by
      intro e he h2
      have hp := hprod e he h2
      have hedge : EdgeOf edges e.1 n := by
        show (e.1, n) ∈ edges
        rw [← h2]
        exact he
      have hnR : ¬ Relation.ReflTransGen (EdgeOf edges) N e.1 :=
        fun hR' => hR (hR'.tail hedge)
      exact hDone e.1 hp hnR
    have hfn : ¬ (fails n = true) := fun h => hnN ((hfail n).mp h)
    have hstat : (execNode ds edges fails ops σ n).status
        = updStatus σ.status n .Done := by
      unfold execNode
      rw [if_pos hdeps]
      by_cases hno : ops n = .NoOp
      · rw [if_pos hno]
      · rw [if_neg hno, if_neg hfn]
    refine ⟨?_, ?_, ?_, ?_⟩
    · intro m hm
      have hm1 : m ∉ pre := fun h => hm (List.mem_append_left _ h)
      have hm2 : m ≠ n := fun h => hm (List.mem_append_right _ (by simp [h]))
      rw [hstat]
      simp only [updStatus, if_neg hm2]
      exact hPend m hm1
    · intro m hm hnRm
      rw [hstat]
      by_cases hm2 : m = n
      · simp [updStatus, hm2]
      · rcases List.mem_append.mp hm with h' | h'
        · simp only [updStatus, if_neg hm2]
          exact hDone m h' hnRm
        · exact absurd (List.mem_singleton.mp h') hm2
    · intro hNmem
      have hNn : N ≠ n := fun h => hnN h.symm
      have hNpre : N ∈ pre := by
        rcases List.mem_append.mp hNmem with h' | h'
        · exact h'
        · exact absurd (List.mem_singleton.mp h') hNn
      rw [hstat]
      simp only [updStatus, if_neg hNn]
      exact hFailN hNpre
    · intro m hm hRm hmN
      have hm2 : m ≠ n := fun h => hR (h ▸ hRm)
      rw [hstat]
      rcases List.mem_append.mp hm with h' | h'
      · simp only [updStatus, if_neg hm2]
        exact hSkip m h' hRm hmN
      · exact absurd (List.mem_singleton.mp h') hm2

theorem failInv_run (ds : List Decl) (edges : List (Nat × Nat)) (fails : Nat → Bool)
    (ops : Nat → Op) (order : List Nat) (N : Nat) (s0 : Store)
    (htopo : ∀ e ∈ edges, order.indexOf e.1 < order.indexOf e.2)
    (hfail : ∀ m, fails m = true ↔ m = N)
    (hops : ops N ≠ .NoOp) :
    FailInv edges N order (runNodes ds edges fails ops order (initExec s0)) := by
  apply runNodes_inv ds edges fails ops order (FailInv edges N)
    (failInv_step ds edges fails ops order N htopo hfail hops) order [] (initExec s0) rfl
  refine ⟨fun _ _ => rfl, ?_, ?_, ?_⟩ <;> simp

/-! ### The run invariant of an all-success run, with store characterization -/

/-- The record written for node `n` during an all-success run, when any:
`NoOp` nodes and undeclared identifiers write nothing. -/
def writtenRec (ds : List Decl) (s0 : Store) (n : Nat) : Option StateRecord :=
  match declFor ds n with
  | some d => some (mkRecord d)
  | none => lookupRec s0 n

/-- Invariant of a partially executed all-success run: every processed node
completed, and the store holds the freshly written record for every processed
non-`NoOp` node and the original record otherwise. -/
def DoneStoreInv (ds : List Decl) (ops : Nat → Op) (s0 : Store)
    (done : List Nat) (σ : ExecState) : Prop :=
  (∀ m ∈ done, σ.status m = .Done) ∧
  (∀ n, lookupRec σ.store n =
    if n ∈ done ∧ ops n ≠ .NoOp then writtenRec ds s0 n else lookupRec s0 n)

theorem doneStoreInv_step (ds : List Decl) (edges : List (Nat × Nat))
    (ops : Nat → Op) (order : List Nat) (s0 : Store)
    (htopo : ∀ e ∈ edges, order.indexOf e.1 < order.indexOf e.2) :
    ∀ pre n suf σ, order = pre ++ n :: suf → DoneStoreInv ds ops s0 pre σ →
      DoneStoreInv ds ops s0 (pre ++ [n]) (execNode ds edges noFail ops σ n) := by
  intro pre n suf σ horder hP
  obtain ⟨hDone, hStore⟩ := hP
  have hprod : ∀ e ∈ edges, e.2 = n → e.1 ∈ pre := producers_in_pre horder htopo
  have hdeps : DepsDone edges σ.status n := by
    intro e he h2
    exact hDone e.1 (hprod e he h2)
  have hstat : (execNode ds edges noFail ops σ n).status
      = updStatus σ.status n .Done := by
    unfold execNode
    rw [if_pos hdeps]
    by_cases hno : ops n = .NoOp
    · rw [if_pos hno]
    · rw [if_neg hno, if_neg (by simp [noFail])]
  have hstatus : ∀ m ∈ pre ++ [n],
      (execNode ds edges noFail ops σ n).status m = .Done := by
    intro m hm
    rw [hstat]
    by_cases hm2 : m = n
    · simp [updStatus, hm2]
    · rcases List.mem_append.mp hm with h' | h'
      · simp only [updStatus, if_neg hm2]
        exact hDone m h'
      · exact absurd (List.mem_singleton.mp h') hm2
  by_cases hno : ops n = .NoOp
  · have hexec : execNode ds edges noFail ops σ n
        = { σ with status := updStatus σ.status n .Done } := by
      unfold execNode
      rw [if_pos hdeps, if_pos hno]
    refine ⟨hstatus, ?_⟩
    intro n'
    rw [hexec]
    show lookupRec σ.store n' = _
    by_cases hn' : n' = n
    · subst hn'
      have hc1 : ¬ (n' ∈ pre ++ [n'] ∧ ops n' ≠ .NoOp) := fun h => h.2 hno
      have hc2 : ¬ (n' ∈ pre ∧ ops n' ≠ .NoOp) := fun h => h.2 hno
      rw [if_neg hc1]
      have := hStore n'
      rw [if_neg hc2] at this
      exact this
    · by_cases hcond : n' ∈ pre ∧ ops n' ≠ .NoOp
      · rw [if_pos ⟨List.mem_append_left _ hcond.1, hcond.2⟩]
        have := hStore n'
        rw [if_pos hcond] at this
        exact this
      · have hc1 : ¬ (n' ∈ pre ++ [n] ∧ ops n' ≠ .NoOp) := by
          intro h
          apply hcond
          refine ⟨?_, h.2⟩
          rcases List.mem_append.mp h.1 with h' | h'
          · exact h'
          · exact absurd (List.mem_singleton.mp h') hn'
        rw [if_neg hc1]
        have := hStore n'
        rw [if_neg hcond] at this
        exact this
  · have hexec : execNode ds edges noFail ops σ n
        = { status := updStatus σ.status n .Done
            store := match declFor ds n with
                     | some d => writeRec σ.store n (mkRecord d)
                     | none => σ.store } := by
      unfold execNode
      rw [if_pos hdeps, if_neg hno, if_neg (by simp [noFail])]
    refine ⟨hstatus, ?_⟩
    intro n'
    rw [hexec]
    by_cases hn' : n' = n
    · subst hn'
      have hc1 : n' ∈ pre ++ [n'] ∧ ops n' ≠ .NoOp :=
        ⟨List.mem_append_right _ (by simp), hno⟩
      rw [if_pos hc1]
      show lookupRec (match declFor ds n' with
            | some d => writeRec σ.store n' (mkRecord d)
            | none => σ.store) n' = writtenRec ds s0 n'
      unfold writtenRec
      rcases hdecl : declFor ds n' with _ | d
      · have := hStore n'
        rcases em (n' ∈ pre ∧ ops n' ≠ .NoOp) with hcond | hcond
        · rw [if_pos hcond] at this
          unfold writtenRec at this
          rw [hdecl] at this
          exact this
        · rw [if_neg hcond] at this
          exact this
      · rw [lookupRec_writeRec, if_pos rfl]
    · show lookupRec (match declFor ds n with
            | some d => writeRec σ.store n (mkRecord d)
            | none => σ.store) n' = _
      have hsame : lookupRec (match declFor ds n with
            | some d => writeRec σ.store n (mkRecord d)
            | none => σ.store) n' = lookupRec σ.store n' := by
        rcases declFor ds n with _ | d
        · rfl
        · rw [lookupRec_writeRec, if_neg hn']
      rw [hsame]
      by_cases hcond : n' ∈ pre ∧ ops n' ≠ .NoOp
      · rw [if_pos ⟨List.mem_append_left _ hcond.1, hcond.2⟩]
        have := hStore n'
        rw [if_pos hcond] at this
        exact this
      · have hc1 : ¬ (n' ∈ pre ++ [n] ∧ ops n' ≠ .NoOp) := by
          intro h
          apply hcond
          refine ⟨?_, h.2⟩
          rcases List.mem_append.mp h.1 with h' | h'
          · exact h'
          · exact absurd (List.mem_singleton.mp h') hn'
        rw [if_neg hc1]
        have := hStore n'
        rw [if_neg hcond] at this
        exact this

/-- After an all-success run over any prefix of a topologically ordered
schedule, every processed node has completed and the store is exactly: the
freshly written record for processed non-`NoOp` nodes, the original record
otherwise. -/
theorem doneStoreInv_run_upto (ds : List Decl) (edges : List (Nat × Nat))
    (ops : Nat → Op) (order run rest : List Nat) (s0 : Store)
    (horder : order = run ++ rest)
    (htopo : ∀ e ∈ edges, order.indexOf e.1 < order.indexOf e.2) :
    DoneStoreInv ds ops s0 run (runNodes ds edges noFail ops run (initExec s0)) := by
  apply runNodes_inv ds edges noFail ops run (DoneStoreInv ds ops s0)
    ?_ run [] (initExec s0) rfl
  · refine ⟨by simp, ?_⟩
    intro n
    simp only [List.not_mem_nil, false_and, if_neg]
    rfl
  · intro pre n suf σ hrun hP
    apply doneStoreInv_step ds edges ops order s0 htopo pre n (suf ++ rest) σ _ hP
    rw [horder, hrun, List.append_assoc]
    rfl

/-- The full-run special case. -/
theorem doneStoreInv_run (ds : List Decl) (edges : List (Nat × Nat))
    (ops : Nat → Op) (order : List Nat) (s0 : Store)
    (htopo : ∀ e ∈ edges, order.indexOf e.1 < order.indexOf e.2) :
    DoneStoreInv ds ops s0 order (runNodes ds edges noFail ops order (initExec s0)) :=
  doneStoreInv_run_upto ds edges ops order order [] s0 (by simp) htopo

/-! ### Bridging lemmas -/

theorem declFor_of_mem {ds : List Decl} (hids : (ds.map Decl.id).Nodup)
    {d : Decl} (hd : d ∈ ds) : declFor ds d.id = some d := by
  induction ds with
  | nil => cases hd
  | cons e t ih =>
    rw [List.map_cons, List.nodup_cons] at hids
    rcases List.mem_cons.mp hd with h' | h'
    · subst h'
      unfold declFor
      rw [List.find?_cons_of_pos]
      simp
    · have hne : e.id ≠ d.id := by
        intro h
        exact hids.1 (h ▸ List.mem_map_of_mem Decl.id h')
      unfold declFor
      rw [List.find?_cons_of_neg _ (by simp [hne])]
      exact ih hids.2 h'

theorem declFor_eq_some {ds : List Decl} {n : Nat} {d : Decl}
    (h : declFor ds n = some d) : d ∈ ds ∧ d.id = n := by
  refine ⟨List.mem_of_find?_eq_some h, ?_⟩
  have := List.find?_some h
  simpa using this

theorem lookupRec_finalize (ds : List Decl) (s : Store) (n : Nat) :
    lookupRec (finalizeStore ds s) n
      = if (ds.map Decl.id).contains n then lookupRec s n else none :=
  lookupRec_filter s _ n

theorem mem_declEdges {ds : List Decl} {p c : Nat} :
    (p, c) ∈ declEdges ds ↔ ∃ d ∈ ds, d.id = c ∧ p ∈ d.refs := by
  unfold declEdges
  simp only [List.mem_flatMap, List.mem_map, Prod.mk.injEq]
  constructor
  · rintro ⟨d, hd, r, hr, rfl, rfl⟩
    exact ⟨d, hd, rfl, hr⟩
  · rintro ⟨d, hd, rfl, hp⟩
    exact ⟨d, hd, p, hp, rfl, rfl⟩

theorem declEdges_closed {ds : List Decl}
    (hclosed : ∀ d ∈ ds, ∀ r ∈ d.refs, r ∈ ds.map Decl.id) :
    ∀ e ∈ declEdges ds, e.1 ∈ ds.map Decl.id ∧ e.2 ∈ ds.map Decl.id := by
  intro e he
  obtain ⟨d, hd, hc, hp⟩ := mem_declEdges.mp (show (e.1, e.2) ∈ declEdges ds from he)
  exact ⟨hclosed d hd e.1 hp, hc ▸ List.mem_map_of_mem Decl.id hd⟩

/-! ## Part 3: the claims -/

/-- Claim C1: the database password is marked secret; the derived connection
URL that interpolates it, and the `DATABASE_URL` container environment
variable carrying it, inherit the secret mark; and every such secret value is
serialized into the State Store (and logs) only in encrypted /
provider-opaque form, never as plaintext. -/
theorem secret_values_stored_opaque (env : Env) (ep : String) (enc : String → String) :
    (dbPassword env).isSecret = true ∧
    (rdsConnectionUrl env ep).isSecret = true ∧
    (storeOutput enc (dbPassword env)).isOpaque = true ∧
    (storeOutput enc (rdsConnectionUrl env ep)).isOpaque = true ∧
    (∀ p ∈ containerEnvironment env ep, p.1 = "DATABASE_URL" →
      p.2.isSecret = true ∧ (storeOutput enc p.2).isOpaque = true) := by
  refine ⟨rfl, rfl, rfl, rfl, ?_⟩
  intro p hp hname
  simp only [containerEnvironment, List.mem_cons, List.not_mem_nil, or_false] at hp
  rcases hp with rfl | rfl | rfl
  · simp at hname
  · exact ⟨rfl, rfl⟩
  · simp at hname

/-- Witness for C1 at a concrete environment, endpoint and cipher. -/
theorem secret_values_stored_opaque_witness :
    (storeOutput (fun s => s ++ s)
        (rdsConnectionUrl (fun _ => none) "ep.rds")).isOpaque = true ∧
    (rdsConnectionUrl (fun _ => none) "ep.rds").isSecret = true := by
  have h := secret_values_stored_opaque (fun _ => none) "ep.rds" (fun s => s ++ s)
  have h5 := h.2.2.2.2 ("DATABASE_URL", rdsConnectionUrl (fun _ => none) "ep.rds")
    (by simp [containerEnvironment]) rfl
  exact ⟨h5.2, h5.1⟩

/-- Claim C7: the declared database security group opens TCP port 5432 to the
whole internet (CIDR `0.0.0.0/0`), and no application-autoscaling target is
declared anywhere in the program (the `ecsTarget` block is commented out). -/
theorem db_ingress_open_and_no_autoscaling (env : Env) :
    db_secgrp_ingress = [⟨"tcp", 5432, 5432, ["0.0.0.0/0"]⟩] ∧
    (∀ r ∈ declaredResources env, r.1 ≠ "aws.appautoscaling.Target") := by
  refine ⟨rfl, ?_⟩
  intro r hr
  simp only [declaredResources, List.mem_cons, List.not_mem_nil, or_false] at hr
  rcases hr with rfl | rfl | rfl | rfl | rfl | rfl | rfl | rfl | rfl | rfl | rfl | rfl
    | rfl | rfl | rfl <;> simp

/-- Witness for C7 at a concrete environment and resource. -/
theorem db_ingress_open_and_no_autoscaling_witness :
    db_secgrp_ingress = [⟨"tcp", 5432, 5432, ["0.0.0.0/0"]⟩] ∧
    ("aws.iam.Role", "dpoppEcsRole").1 ≠ "aws.appautoscaling.Target" := by
  have h := db_ingress_open_and_no_autoscaling (fun _ => none)
  exact ⟨h.1, h.2 ("aws.iam.Role", "dpoppEcsRole") (by simp [declaredResources])⟩

/-- Claim C8: none of the seven environment variables the program reads can
make the computation fail when unset — the template-literal wrapping coerces a
missing value to the string `"undefined"`; in particular the domain becomes
`"scorer.undefined"`. -/
theorem unset_env_vars_coerce_to_undefined (env : Env) :
    (env "ROUTE_53_ZONE" = none → route53Zone env = "undefined") ∧
    (env "DOMAIN" = none → domain env = "scorer.undefined") ∧
    (env "SCORER_SERVER_SSM_ARN" = none → SCORER_SERVER_SSM_ARN env = "undefined") ∧
    (env "DB_USER" = none → dbUsername env = "undefined") ∧
    (env "DB_PASSWORD" = none → dbPasswordStr env = "undefined") ∧
    (env "DB_NAME" = none → dbName env = "undefined") ∧
    (env "DOCKER_GTC_PASSPORT_SCORER_IMAGE" = none →
      dockerGtcPassportIamImage env = "undefined") := by
  refine ⟨?_, ?_, ?_, ?_, ?_, ?_, ?_⟩ <;>
    intro h <;>
      simp [route53Zone, domain, SCORER_SERVER_SSM_ARN, dbUsername, dbPasswordStr,
        dbName, dockerGtcPassportIamImage, tmpl, h]

/-- Witness for C8: a fully unset environment. -/
theorem unset_env_vars_coerce_to_undefined_witness :
    route53Zone (fun _ => none) = "undefined" ∧
    domain (fun _ => none) = "scorer.undefined" := by
  have h := unset_env_vars_coerce_to_undefined (fun _ => none)
  exact ⟨h.1 rfl, h.2.1 rfl⟩

/-- Claim C9: the port-80 listener carries exactly one default action — a
redirect to HTTPS on port 443 with status `HTTP_301` — and every listener the
program declares on port 80 only redirects (none forwards plaintext HTTP
application traffic). -/
theorem port80_only_redirects :
    httpListener.port = 80 ∧
    httpListener.defaultActions = [.redirect ⟨"HTTPS", "443", "HTTP_301"⟩] ∧
    (∀ l ∈ albListeners, l.port = 80 →
      ∀ a ∈ l.defaultActions, ∃ r, a = ListenerAction.redirect r) := by
  refine ⟨rfl, rfl, ?_⟩
  intro l hl hp a ha
  simp only [albListeners, List.mem_cons, List.not_mem_nil, or_false] at hl
  rcases hl with rfl | rfl
  · simp only [httpListener, List.mem_cons, List.not_mem_nil, or_false] at ha
    rcases ha with rfl
    exact ⟨_, rfl⟩
  · exact absurd hp (by decide)

/-- Witness for C9 at the concrete port-80 listener and its action. -/
theorem port80_only_redirects_witness :
    ∃ r, ListenerAction.redirect ⟨"HTTPS", "443", "HTTP_301"⟩
        = ListenerAction.redirect r := by
  exact port80_only_redirects.2.2 httpListener (by simp [albListeners]) rfl
    (ListenerAction.redirect ⟨"HTTPS", "443", "HTTP_301"⟩) (by simp [httpListener])

/-- Claim C10: the ECS task execution role's trust policy has exactly one
statement, allowing only the service principal `ecs-tasks.amazonaws.com` to
assume the role; and its only inline policy has exactly one statement,
granting exactly the action `secretsmanager:GetSecretValue` on exactly the
resource `SCORER_SERVER_SSM_ARN`. -/
theorem ecs_role_trust_and_secret_access (env : Env) :
    (dpoppEcsRole env).assumeRolePolicy.statements.length = 1 ∧
    (∀ s ∈ (dpoppEcsRole env).assumeRolePolicy.statements,
      s.principalService = some "ecs-tasks.amazonaws.com" ∧
      s.effect = "Allow" ∧ s.actions = ["sts:AssumeRole"]) ∧
    (dpoppEcsRole env).inlinePolicies.length = 1 ∧
    (∀ ip ∈ (dpoppEcsRole env).inlinePolicies,
      ip.policy.statements.length = 1 ∧
      ∀ s ∈ ip.policy.statements,
        s.actions = ["secretsmanager:GetSecretValue"] ∧
        s.effect = "Allow" ∧
        s.resource = some (SCORER_SERVER_SSM_ARN env)) := by
  refine ⟨rfl, ?_, rfl, ?_⟩
  · intro s hs
    simp only [dpoppEcsRole, List.mem_cons, List.not_mem_nil, or_false] at hs
    rcases hs with rfl
    exact ⟨rfl, rfl, rfl⟩
  · intro ip hip
    simp only [dpoppEcsRole, List.mem_cons, List.not_mem_nil, or_false] at hip
    rcases hip with rfl
    refine ⟨rfl, ?_⟩
    intro s hs
    simp only [List.mem_cons, List.not_mem_nil, or_false] at hs
    rcases hs with rfl
    exact ⟨rfl, rfl, rfl⟩

/-- Witness for C10 at a concrete environment. -/
theorem ecs_role_trust_and_secret_access_witness :
    (dpoppEcsRole (fun _ => none)).assumeRolePolicy.statements.length = 1 ∧
    ({ actions := ["sts:AssumeRole"], effect := "Allow",
       principalService := some "ecs-tasks.amazonaws.com",
       resource := none } : PolicyStatement).principalService
      = some "ecs-tasks.amazonaws.com" := by
  have h := ecs_role_trust_and_secret_access (fun _ => none)
  refine ⟨h.1, ?_⟩
  exact (h.2.1 _ (by simp [dpoppEcsRole])).1

theorem contains_iff_mem {l : List Nat} {n : Nat} : l.contains n = true ↔ n ∈ l :=
  List.elem_iff

/-- Claim C3: in any schedule of the wave scheduler, the producer of every
edge is placed in a strictly earlier wave than its consumer; and in the
deletion schedule (built on the reversed graph over the nodes being deleted),
the consumer's delete wave strictly precedes the producer's. -/
theorem scheduler_wave_ordering (edges : List (Nat × Nat)) (nodes dnodes : List Nat)
    (p c : Nat) (he : (p, c) ∈ edges) (i j di dj : Nat) :
    (inWave edges nodes i p → inWave edges nodes j c → i < j) ∧
    (inWave (flipEdges edges) dnodes di c → inWave (flipEdges edges) dnodes dj p → di < dj) := by
  constructor
  · intro hp hc
    exact wave_lt he hp hc
  · intro hc hp
    have he' : (c, p) ∈ flipEdges edges := by
      unfold flipEdges
      exact List.mem_map_of_mem (fun e => (e.2, e.1)) he
    exact wave_lt he' hc hp

/-- Witness for C3 on the two-node chain 0 → 1. -/
theorem scheduler_wave_ordering_witness : (0 : Nat) < 1 ∧ (0 : Nat) < 1 := by
  have h := scheduler_wave_ordering [(0, 1)] [0, 1] [0, 1] 0 1 (by decide) 0 1 0 1
  exact ⟨h.1 (by decide) (by decide), h.2 (by decide) (by decide)⟩

/-- Claim C6: a declaration list whose inferred reference graph is cyclic
always fails the Graph Builder with `CycleError` (the builder is a pure
function, mutating no state); an acyclic list (with distinct identifiers, as
the builder's separate `DuplicateIdentifierError` check requires) builds a
graph with exactly one node per declaration whose edges are exactly the
cross-references. -/
theorem buildGraph_cycle_error_or_graph (ds : List Decl)
    (hclosed : ∀ d ∈ ds, ∀ r ∈ d.refs, r ∈ ds.map Decl.id)
    (hids : (ds.map Decl.id).Nodup) :
    (HasCycle (declEdges ds) → buildGraph ds = .error .CycleError) ∧
    (¬ HasCycle (declEdges ds) →
      buildGraph ds = .ok ⟨ds.map Decl.id, declEdges ds⟩ ∧
      (ds.map Decl.id).length = ds.length ∧
      (∀ p c : Nat, (p, c) ∈ declEdges ds ↔ ∃ d ∈ ds, d.id = c ∧ p ∈ d.refs)) := by
  have hiff := hasCycleB_iff (declEdges_closed hclosed)
  constructor
  · intro hcyc
    have hb : hasCycleB (ds.map Decl.id) (declEdges ds) = true := hiff.mpr hcyc
    unfold buildGraph
    rw [if_pos hb]
  · intro hncyc
    have hb : ¬ (hasCycleB (ds.map Decl.id) (declEdges ds) = true) :=
      fun h => hncyc (hiff.mp h)
    unfold buildGraph
    rw [if_neg hb, if_pos hids]
    exact ⟨rfl, List.length_map ds Decl.id, fun p c => mem_declEdges⟩

/-- Witness for C6: a concrete cyclic pair fails with `CycleError`, and a
concrete acyclic pair builds the expected graph. -/
theorem buildGraph_cycle_error_or_graph_witness :
    buildGraph [⟨0, 1, [1]⟩, ⟨1, 2, [0]⟩] = .error .CycleError ∧
    buildGraph [⟨0, 5, []⟩, ⟨1, 7, [0]⟩] = .ok ⟨[0, 1], [(0, 1)]⟩ := by
  constructor
  · apply (buildGraph_cycle_error_or_graph [⟨0, 1, [1]⟩, ⟨1, 2, [0]⟩]
      (by decide) (by decide)).1
    refine ⟨2, fun i => i % 2, by decide, by decide, ?_⟩
    intro i hi
    interval_cases i <;> decide
  · have h := (buildGraph_cycle_error_or_graph [⟨0, 5, []⟩, ⟨1, 7, [0]⟩]
      (by decide) (by decide)).2
    have hncyc : ¬ HasCycle (declEdges [⟨0, 5, []⟩, ⟨1, 7, [0]⟩]) := by
      intro hcyc
      have hb := (hasCycleB_iff (declEdges_closed (by decide))).mpr hcyc
      exact absurd hb (by decide)
    exact (h hncyc).1

/-- Claim C2: the Diff Engine assigns `NoOp` to a node exactly when a
StateRecord exists whose stored hash equals the declared-config hash; and
after a full successful apply with unchanged declarations, re-running the diff
yields a ChangeSet whose every entry is `NoOp`. -/
theorem diff_noop_iff_and_rediff_all_noop (repl : Decl → StateRecord → Bool)
    (ds : List Decl) (edges : List (Nat × Nat)) (order : List Nat) (s0 : Store)
    (htopo : ∀ e ∈ edges, order.indexOf e.1 < order.indexOf e.2)
    (horder : ∀ n, n ∈ order ↔ n ∈ ds.map Decl.id)
    (hids : (ds.map Decl.id).Nodup) :
    (∀ (d : Decl) (st : Option StateRecord),
      diffOp repl d st = .NoOp ↔ ∃ r, st = some r ∧ d.configHash = r.configHash) ∧
    (∀ p ∈ changeSet repl ds (applyFull repl ds edges order s0), p.2 = Op.NoOp) := by
  constructor
  · intro d st
    constructor
    · intro h
      match st with
      | none => simp [diffOp] at h
      | some r =>
        by_cases hh : d.configHash = r.configHash
        · exact ⟨r, rfl, hh⟩
        · exfalso
          by_cases hr : repl d r <;> simp [diffOp, hh, hr] at h
    · rintro ⟨r, rfl, hh⟩
      simp [diffOp, hh]
  · intro p hp
    unfold changeSet at hp
    rcases List.mem_append.mp hp with hp | hp
    · obtain ⟨d, hd, rfl⟩ := List.mem_map.mp hp
      show diffOp repl d (lookupRec (applyFull repl ds edges order s0) d.id) = Op.NoOp
      have hmemids : d.id ∈ ds.map Decl.id := List.mem_map_of_mem Decl.id hd
      have hcont : (ds.map Decl.id).contains d.id = true := contains_iff_mem.mpr hmemids
      have hmemord : d.id ∈ order := (horder d.id).mpr hmemids
      have hdecl : declFor ds d.id = some d := declFor_of_mem hids hd
      have hchar := (doneStoreInv_run ds edges (opsFor repl ds s0) order s0 htopo).2 d.id
      have hlook : lookupRec (applyFull repl ds edges order s0) d.id
          = lookupRec (runNodes ds edges noFail (opsFor repl ds s0) order
              (initExec s0)).store d.id := by
        unfold applyFull
        rw [lookupRec_finalize, if_pos hcont]
      rw [hlook, hchar]
      by_cases hop : opsFor repl ds s0 d.id = .NoOp
      · rw [if_neg (fun h => h.2 hop)]
        have hopd : opsFor repl ds s0 d.id = diffOp repl d (lookupRec s0 d.id) := by
          unfold opsFor
          rw [hdecl]
        rw [← hopd]
        exact hop
      · rw [if_pos ⟨hmemord, hop⟩]
        unfold writtenRec
        rw [hdecl]
        simp [diffOp, mkRecord]
    · obtain ⟨q, hq, rfl⟩ := List.mem_map.mp hp
      exfalso
      have h1 := List.mem_filter.mp hq
      have h2 : q ∈ finalizeStore ds (runNodes ds edges noFail (opsFor repl ds s0)
          order (initExec s0)).store := h1.1
      unfold finalizeStore at h2
      have h3 := (List.mem_filter.mp h2).2
      have h4 := h1.2
      simp only [h3] at h4
      simp at h4

/-- Witness for C2 on a two-declaration chain applied to an empty store. -/
theorem diff_noop_iff_and_rediff_all_noop_witness :
    diffOp (fun _ _ => false) ⟨0, 5, []⟩ (some ⟨5, 0, 5⟩) = Op.NoOp ∧
    (0, Op.NoOp).2 = Op.NoOp := by
  have h := diff_noop_iff_and_rediff_all_noop (fun _ _ => false)
    [⟨0, 5, []⟩, ⟨1, 7, [0]⟩] [(0, 1)] [0, 1] []
    (by decide) (fun n => Iff.rfl) (by decide)
  constructor
  · exact (h.1 ⟨0, 5, []⟩ (some ⟨5, 0, 5⟩)).mpr ⟨⟨5, 0, 5⟩, rfl, rfl⟩
  · exact h.2 (0, Op.NoOp) (by decide)

/-- Claim C5: applying a declaration set, killing the run immediately after
node `K` succeeds, and re-running to completion (diffing against the
partially updated store) yields the same final StateRecord mapping as one
uninterrupted run. -/
theorem resumable_after_kill (repl : Decl → StateRecord → Bool)
    (ds : List Decl) (edges : List (Nat × Nat)) (order : List Nat) (s0 : Store) (K : Nat)
    (htopo : ∀ e ∈ edges, order.indexOf e.1 < order.indexOf e.2)
    (horder : ∀ n, n ∈ order ↔ n ∈ ds.map Decl.id)
    (hids : (ds.map Decl.id).Nodup)
    (_hK : K ∈ order) :
    ∀ n, lookupRec (applyFull repl ds edges order
           ((runNodes ds edges noFail (opsFor repl ds s0)
             (order.take (order.indexOf K + 1)) (initExec s0)).store)) n
       = lookupRec (applyFull repl ds edges order s0) n := by
  intro n
  set k := order.indexOf K + 1 with hk
  set ops1 := opsFor repl ds s0 with hops1
  set s1 := (runNodes ds edges noFail ops1 (order.take k) (initExec s0)).store with hs1
  set ops2 := opsFor repl ds s1 with hops2
  have hchar1 := (doneStoreInv_run_upto ds edges ops1 order (order.take k)
      (order.drop k) s0 (List.take_append_drop k order).symm htopo).2
  have hchar2 := (doneStoreInv_run ds edges ops2 order s1 htopo).2
  have hcharF := (doneStoreInv_run ds edges ops1 order s0 htopo).2
  unfold applyFull
  rw [lookupRec_finalize, lookupRec_finalize]
  by_cases hcont : (ds.map Decl.id).contains n
  · rw [if_pos hcont, if_pos hcont]
    have hmemids : n ∈ ds.map Decl.id := contains_iff_mem.mp hcont
    obtain ⟨d, hd, hdid⟩ := List.mem_map.mp hmemids
    have hdecl : declFor ds n = some d := hdid ▸ declFor_of_mem hids hd
    have hmemord : n ∈ order := (horder n).mpr hmemids
    have h2 := hchar2 n
    have hF := hcharF n
    have h1 := hchar1 n
    have hop1eq : ops1 n = diffOp repl d (lookupRec s0 n) := by
      rw [hops1]
      unfold opsFor
      rw [hdecl]
    have hop2eq : ops2 n = diffOp repl d (lookupRec s1 n) := by
      rw [hops2]
      unfold opsFor
      rw [hdecl]
    have hwr0 : writtenRec ds s0 n = some (mkRecord d) := by
      unfold writtenRec
      rw [hdecl]
    have hwr1 : writtenRec ds s1 n = some (mkRecord d) := by
      unfold writtenRec
      rw [hdecl]
    by_cases hop1 : ops1 n = .NoOp
    · have hs1n : lookupRec s1 n = lookupRec s0 n := by
        rw [h1, if_neg (fun h => h.2 hop1)]
      have hop2 : ops2 n = .NoOp := by
        rw [hop2eq, hs1n, ← hop1eq]
        exact hop1
      rw [h2, if_neg (fun h => h.2 hop2), hs1n, hF, if_neg (fun h => h.2 hop1)]
    · rw [hF, if_pos ⟨hmemord, hop1⟩, hwr0]
      by_cases htake : n ∈ order.take k
      · have hs1n : lookupRec s1 n = some (mkRecord d) := by
          rw [h1, if_pos ⟨htake, hop1⟩, hwr0]
        have hop2 : ops2 n = .NoOp := by
          rw [hop2eq, hs1n]
          simp [diffOp, mkRecord]
        rw [h2, if_neg (fun h => h.2 hop2), hs1n]
      · have hs1n : lookupRec s1 n = lookupRec s0 n := by
          rw [h1, if_neg (fun h => htake h.1)]
        have hop2 : ops2 n ≠ .NoOp := by
          rw [hop2eq, hs1n, ← hop1eq]
          exact hop1
        rw [h2, if_pos ⟨hmemord, hop2⟩, hwr1]
  · rw [if_neg hcont, if_neg hcont]

/-- Witness for C5: killing a two-node apply right after node 0 succeeds and
re-running gives the same record for node 1 as the uninterrupted run. -/
theorem resumable_after_kill_witness :
    lookupRec (applyFull (fun _ _ => false) [⟨0, 5, []⟩, ⟨1, 7, [0]⟩] [(0, 1)] [0, 1]
        ((runNodes [⟨0, 5, []⟩, ⟨1, 7, [0]⟩] [(0, 1)] noFail
          (opsFor (fun _ _ => false) [⟨0, 5, []⟩, ⟨1, 7, [0]⟩] [])
          ([0, 1].take ([0, 1].indexOf 0 + 1)) (initExec [])).store)) 1
      = lookupRec (applyFull (fun _ _ => false) [⟨0, 5, []⟩, ⟨1, 7, [0]⟩]
          [(0, 1)] [0, 1] []) 1 :=
  resumable_after_kill (fun _ _ => false) [⟨0, 5, []⟩, ⟨1, 7, [0]⟩] [(0, 1)] [0, 1] [] 0
    (by decide) (fun n => Iff.rfl) (by decide) (by decide) 1

/-- Claim C4: in a run where (exactly) node `N` fails, `N` ends `Failed`,
every transitive dependent of `N` ends the run still `Planned` (never
`Created`/`Updated`), and every node with no path from `N` reaches the
terminal state its operation intends. -/
theorem failed_node_isolates_dependents (ds : List Decl) (edges : List (Nat × Nat))
    (fails : Nat → Bool) (ops : Nat → Op) (order : List Nat) (s0 : Store) (N : Nat)
    (htopo : ∀ e ∈ edges, order.indexOf e.1 < order.indexOf e.2)
    (hfail : ∀ m, fails m = true ↔ m = N)
    (hops : ops N ≠ .NoOp) :
    (N ∈ order →
      lifecycle ops (runNodes ds edges fails ops order (initExec s0)).status N
        = .Failed) ∧
    (∀ n ∈ order, Relation.TransGen (EdgeOf edges) N n →
      lifecycle ops (runNodes ds edges fails ops order (initExec s0)).status n
        = .Planned) ∧
    (∀ n ∈ order, ¬ Relation.ReflTransGen (EdgeOf edges) N n →
      lifecycle ops (runNodes ds edges fails ops order (initExec s0)).status n
        = opSuccessState (ops n)) := by
  obtain ⟨hPend, hDone, hFailN, hSkip⟩ :=
    failInv_run ds edges fails ops order N s0 htopo hfail hops
  refine ⟨?_, ?_, ?_⟩
  · intro hN
    simp [lifecycle, hFailN hN]
  · intro n hn htg
    have hR : Relation.ReflTransGen (EdgeOf edges) N n := htg.to_reflTransGen
    have hnN : n ≠ N := by
      intro h
      subst h
      exact not_transGen_self htopo htg
    simp [lifecycle, hSkip n hn hR hnN]
  · intro n hn hnR
    simp [lifecycle, hDone n hn hnR]

/-- Witness for C4: node 0 fails on the graph 0 → 1 with an isolated node 2 —
node 1 stays `Planned`, node 2 is created, node 0 is `Failed`. -/
theorem failed_node_isolates_dependents_witness :
    lifecycle (fun _ => Op.Create)
      (runNodes [] [(0, 1)] (fun m => m == 0) (fun _ => Op.Create) [0, 1, 2]
        (initExec [])).status 0 = NState.Failed ∧
    lifecycle (fun _ => Op.Create)
      (runNodes [] [(0, 1)] (fun m => m == 0) (fun _ => Op.Create) [0, 1, 2]
        (initExec [])).status 1 = NState.Planned ∧
    lifecycle (fun _ => Op.Create)
      (runNodes [] [(0, 1)] (fun m => m == 0) (fun _ => Op.Create) [0, 1, 2]
        (initExec [])).status 2 = NState.Created := by
  have h := failed_node_isolates_dependents [] [(0, 1)] (fun m => m == 0)
    (fun _ => Op.Create) [0, 1, 2] [] 0
    (by decide) (fun m => by simp) (by decide)
  refine ⟨h.1 (by decide), ?_, ?_⟩
  · apply h.2.1 1 (by decide)
    exact Relation.TransGen.single (show ((0 : Nat), (1 : Nat)) ∈ [((0 : Nat), (1 : Nat))] by decide)
  · apply h.2.2 2 (by decide)
    intro hR
    rcases Relation.ReflTransGen.cases_head hR with heq | ⟨c, hc, h2⟩
    · exact absurd heq (by decide)
    · have hc1 : c = 1 := by
        have hmem : ((0 : Nat), c) ∈ [((0 : Nat), (1 : Nat))] := hc
        simp only [List.mem_singleton, Prod.mk.injEq] at hmem
        exact hmem.2
      subst hc1
      rcases Relation.ReflTransGen.cases_head h2 with heq | ⟨e, he, _⟩
      · exact absurd heq (by decide)
      · have : ((1 : Nat), e) ∈ [((0 : Nat), (1 : Nat))] := he
        simp at this

end Scorer
